import Mathlib

/-!
Shallow embedding of the b3-rs intermediate-representation core
(src/block.rs, src/procedure.rs, src/air/inst.rs) together with proofs
about its CFG bookkeeping, frequency algebra, constant construction and
Air instruction operand traversal.

Machine integers are modelled as `Nat`/`Int` with explicit wrapping where
the source casts; fallible operations (panicking indexing, `todo!()`
placeholders) are modelled with `Option`.  Types of this repository that
are not part of the three embedded files (the generated opcode/form
table, `Arg`, `Value`, the sparse id containers) are modelled from the
specification and marked as such in their doc comments.
-/

set_option maxHeartbeats 1000000

namespace B3

/-- Block identifiers are dense indices into the block vector (src/block.rs `BlockId`). -/
abbrev BlockId := Nat

/-- Coarse execution-frequency class of a control-flow edge (src/block.rs `Frequency`). -/
inductive Frequency
  | normal
  | rare
deriving DecidableEq

/-- A successor edge: target block paired with its frequency (src/block.rs `FrequentBlock`). -/
abbrev FrequentBlock := BlockId × Frequency

/-- src/block.rs `max_frequency`: `if a == Frequency::Normal { a } else { b }`. -/
def max_frequency (a b : Frequency) : Frequency :=
  if a = Frequency.normal then a else b

/-- A basic block (src/block.rs `BasicBlock`): index, program-ordered value ids,
predecessor ids, frequency-tagged successor list.  Value ids are `Nat`; the `f64`
block frequency is modelled as `Float` (it is never inspected by any claim). -/
structure BasicBlock where
  index : Nat
  values : List Nat
  predecessor_list : List BlockId
  successor_list : List FrequentBlock
  frequency : Float
deriving Inhabited

/-- src/block.rs `BasicBlock::new`: fresh block with empty value, predecessor and
successor lists. -/
def BasicBlock.new (index : Nat) (frequency : Float) : BasicBlock :=
  ⟨index, [], [], [], frequency⟩

/-- src/block.rs `BasicBlock::taken`: `successor_list[0]`; the out-of-range panic is
modelled by `Option`. -/
def BasicBlock.taken (b : BasicBlock) : Option FrequentBlock :=
  b.successor_list[0]?

/-- src/block.rs `BasicBlock::not_taken`: `successor_list[1]`; the out-of-range panic
is modelled by `Option`. -/
def BasicBlock.not_taken (b : BasicBlock) : Option FrequentBlock :=
  b.successor_list[1]?

/-- src/block.rs `BasicBlock::set_successors`: clear the successor list, then push the
single target. -/
def BasicBlock.set_successors (b : BasicBlock) (target : FrequentBlock) : BasicBlock :=
  { b with successor_list := [target] }

/-- src/block.rs `BasicBlock::set_successors2`: clear the successor list, then push the
two targets in order. -/
def BasicBlock.set_successors2 (b : BasicBlock) (target1 target2 : FrequentBlock) :
    BasicBlock :=
  { b with successor_list := [target1, target2] }

/-- src/block.rs `BasicBlock::add_predecessor`: push unless already present; the `Bool`
reports whether the list changed. -/
def BasicBlock.add_predecessor (b : BasicBlock) (predecessor : BlockId) :
    BasicBlock × Bool :=
  if b.predecessor_list.contains predecessor then
    (b, false)
  else
    ({ b with predecessor_list := b.predecessor_list ++ [predecessor] }, true)

/-- The rewriting loop of src/block.rs `BasicBlock::replace_successor`: every entry
whose block id equals `fromId` is retargeted to `toId`, and the flag records whether
any entry matched. -/
def replaceSuccessorLoop (fromId toId : BlockId) :
    List FrequentBlock → List FrequentBlock × Bool
  | [] => ([], false)
  | s :: rest =>
    let hit := s.fst == fromId
    let s' := if hit then (toId, s.snd) else s
    let (rest', found) := replaceSuccessorLoop fromId toId rest
    (s' :: rest', hit || found)

/-- src/block.rs `BasicBlock::replace_successor`. -/
def BasicBlock.replace_successor (b : BasicBlock) (fromId toId : BlockId) :
    BasicBlock × Bool :=
  let (l, result) := replaceSuccessorLoop fromId toId b.successor_list
  ({ b with successor_list := l }, result)

theorem replaceSuccessorLoop_eq (fromId toId : BlockId) (l : List FrequentBlock) :
    replaceSuccessorLoop fromId toId l =
      (l.map (fun s => if s.fst = fromId then (toId, s.snd) else s),
       l.any (fun s => s.fst == fromId)) := by
  induction l with
  | nil => rfl
  | cons s rest ih =>
    simp only [replaceSuccessorLoop, ih, List.map_cons, List.any_cons]
    by_cases h : s.fst = fromId <;> simp [h]

/-- C5: the frequency-merge operation `max_frequency` yields `Normal` whenever either
argument is `Normal` (so `Normal` is absorbing on both sides), yields `Rare` on two
`Rare` arguments, and is commutative. -/
theorem max_frequency_spec :
    (∀ b, max_frequency Frequency.normal b = Frequency.normal)
    ∧ (∀ a, max_frequency a Frequency.normal = Frequency.normal)
    ∧ max_frequency Frequency.rare Frequency.rare = Frequency.rare
    ∧ (∀ a b, max_frequency a b = max_frequency b a) := by
  refine ⟨fun b => rfl, fun a => ?_, rfl, fun a b => ?_⟩
  · cases a <;> rfl
  · cases a <;> cases b <;> rfl

/-- C10: `replace_successor(from, to)` rewrites every successor entry whose block id
equals `from` (not only the first match) to carry block id `to`, preserving each
rewritten entry's frequency and the list's order and length; it returns `true` iff at
least one entry matched, and leaves the block unchanged when none does. -/
theorem replace_successor_spec (b : BasicBlock) (fromId toId : BlockId) :
    (b.replace_successor fromId toId).fst.successor_list
      = b.successor_list.map (fun s => if s.fst = fromId then (toId, s.snd) else s)
    ∧ (b.replace_successor fromId toId).fst.successor_list.length
        = b.successor_list.length
    ∧ ((b.replace_successor fromId toId).snd = true
        ↔ ∃ s ∈ b.successor_list, s.fst = fromId)
    ∧ ((∀ s ∈ b.successor_list, s.fst ≠ fromId) →
        (b.replace_successor fromId toId).fst = b) := by
  refine ⟨?_, ?_, ?_, ?_⟩
  · simp [BasicBlock.replace_successor, replaceSuccessorLoop_eq]
  · simp [BasicBlock.replace_successor, replaceSuccessorLoop_eq]
  · simp [BasicBlock.replace_successor, replaceSuccessorLoop_eq]
  · intro h
    have hmap : b.successor_list.map
        (fun s => if s.fst = fromId then (toId, s.snd) else s) = b.successor_list := by
      rw [List.map_congr_left (g := id), List.map_id]
      intro s hs
      simp [h s hs]
    cases b with
    | mk index values preds succs freq =>
      simp_all [BasicBlock.replace_successor, replaceSuccessorLoop_eq]

/-- Witness for C10 at a concrete block with two matching entries and one other. -/
theorem replace_successor_spec_witness :
    ((BasicBlock.new 5 1.0).set_successors2 (0, Frequency.normal) (1, Frequency.rare)
      |>.replace_successor 0 2).fst.successor_list
      = (((BasicBlock.new 5 1.0).set_successors2 (0, Frequency.normal)
          (1, Frequency.rare)).successor_list.map
            (fun s => if s.fst = 0 then (2, s.snd) else s))
    ∧ (((BasicBlock.new 5 1.0).set_successors2 (0, Frequency.normal) (1, Frequency.rare)
        |>.replace_successor 0 2).fst.successor_list.length
        = ((BasicBlock.new 5 1.0).set_successors2 (0, Frequency.normal)
            (1, Frequency.rare)).successor_list.length)
    ∧ ((((BasicBlock.new 5 1.0).set_successors2 (0, Frequency.normal) (1, Frequency.rare)
        |>.replace_successor 0 2).snd = true)
        ↔ ∃ s ∈ ((BasicBlock.new 5 1.0).set_successors2 (0, Frequency.normal)
            (1, Frequency.rare)).successor_list, s.fst = 0)
    ∧ ((∀ s ∈ ((BasicBlock.new 5 1.0).set_successors2 (0, Frequency.normal)
          (1, Frequency.rare)).successor_list, s.fst ≠ 0) →
        ((BasicBlock.new 5 1.0).set_successors2 (0, Frequency.normal) (1, Frequency.rare)
          |>.replace_successor 0 2).fst
          = (BasicBlock.new 5 1.0).set_successors2 (0, Frequency.normal)
              (1, Frequency.rare)) :=
  replace_successor_spec
    ((BasicBlock.new 5 1.0).set_successors2 (0, Frequency.normal) (1, Frequency.rare)) 0 2

/-- Update the element at index `i` of a list; identity when out of range.  This
models the `block_mut(id)` in-place update pattern of src/procedure.rs (the claims
proved below always keep the index in range, where the source would panic). -/
def listModify (f : α → α) : Nat → List α → List α
  | _, [] => []
  | 0, a :: rest => f a :: rest
  | n + 1, a :: rest => a :: listModify f n rest

@[simp]
theorem length_listModify (f : α → α) (n : Nat) (l : List α) :
    (listModify f n l).length = l.length := by
  induction l generalizing n with
  | nil => cases n <;> rfl
  | cons a rest ih => cases n <;> simp [listModify, ih]

theorem getD_listModify_self (f : α → α) (n : Nat) (l : List α) (d : α)
    (h : n < l.length) : (listModify f n l).getD n d = f (l.getD n d) := by
  induction l generalizing n with
  | nil => simp at h
  | cons a rest ih =>
    cases n with
    | zero => rfl
    | succ m => simpa [listModify] using ih m (by simpa using h)

theorem getD_listModify_ne (f : α → α) (n i : Nat) (l : List α) (d : α)
    (h : i ≠ n) : (listModify f n l).getD i d = l.getD i d := by
  induction l generalizing n i with
  | nil => cases n <;> rfl
  | cons a rest ih =>
    cases n with
    | zero => cases i with
      | zero => exact absurd rfl h
      | succ j => rfl
    | succ m => cases i with
      | zero => rfl
      | succ j => simpa [listModify] using ih m j (by omega)

/-- Modelled from the spec: src/value.rs is not part of the embedded sources.  A
`Value` is a node of the mid-level graph (spec §3); only the constructors reached by
the embedded src/procedure.rs and src/block.rs code are represented.  Floating-point
constants are represented by their IEEE-754 bit patterns. -/
inductive Value
  | const32 (value : Int)
  | const64 (value : Int)
  | constFloat (bits : Nat)
  | constDouble (bits : Nat)
  | jump
  | branch (condition : Nat)
deriving DecidableEq

/-- The procedure (src/procedure.rs `Procedure`): owns the value store and the block
vector.  The variable store and the cached dominator/natural-loop analyses live in
files outside the embedded sources and are touched by no claim, so they are omitted. -/
structure Procedure where
  values : List Value
  blocks : List BasicBlock

/-- src/procedure.rs `Procedure::new`. -/
def Procedure.new : Procedure := ⟨[], []⟩

/-- Modelled from the spec: src/sparse_collection.rs is not part of the embedded
sources; per spec §2/§3 the stable-id container assigns each added element a dense,
permanent integer id.  `add` appends and returns the fresh id. -/
def Procedure.add (p : Procedure) (val : Value) : Procedure × Nat :=
  ({ p with values := p.values ++ [val] }, p.values.length)

/-- src/procedure.rs `Procedure::add_block`: append a fresh block at the next index. -/
def Procedure.add_block (p : Procedure) (frequency : Float) : Procedure × BlockId :=
  ({ p with blocks := p.blocks ++ [BasicBlock.new p.blocks.length frequency] },
   p.blocks.length)

/-- src/procedure.rs `Procedure::block`: read access to a block by id (out-of-range
access would panic; claims always stay in range, where `getD` agrees). -/
def Procedure.block (p : Procedure) (id : BlockId) : BasicBlock :=
  p.blocks.getD id default

/-- The `block_mut(id)` update pattern of src/procedure.rs, as a functional update. -/
def Procedure.modifyBlock (p : Procedure) (id : BlockId) (f : BasicBlock → BasicBlock) :
    Procedure :=
  { p with blocks := listModify f id p.blocks }

/-- src/procedure.rs `Procedure::add_to_block`: push a value id onto the block's
value list. -/
def Procedure.add_to_block (p : Procedure) (block : BlockId) (value : Nat) : Procedure :=
  p.modifyBlock block (fun b => { b with values := b.values ++ [value] })

/-- src/procedure.rs `Procedure::add_jump`: register a fresh Jump value. -/
def Procedure.add_jump (p : Procedure) : Procedure × Nat :=
  p.add Value.jump

/-- Modelled from the spec: `Procedure::add_branch` is called by the builder
(src/block.rs line 418) but its definition is not under the embedded sources; per
spec §4.3 it registers a fresh branch value on the given condition. -/
def Procedure.add_branch (p : Procedure) (condition : Nat) : Procedure × Nat :=
  p.add (Value.branch condition)

/-- src/block.rs `BasicBlockBuilder::add_jump`, with the builder's `(func, block)`
pair passed explicitly: clear the successors, append a fresh Jump value, install the
single `(to, Normal)` successor, register the reciprocal predecessor edge. -/
def BasicBlockBuilder.add_jump (p : Procedure) (block tgt : BlockId) : Procedure :=
  let p1 := p.modifyBlock block (fun b => { b with successor_list := [] })
  let pv := p1.add_jump
  let p2 := pv.fst.add_to_block block pv.snd
  let p3 := p2.modifyBlock block (fun b => b.set_successors (tgt, Frequency.normal))
  p3.modifyBlock tgt (fun b => (b.add_predecessor block).fst)

/-- src/block.rs `BasicBlockBuilder::add_branch`: clear the successors, append a
fresh branch value, install `[(taken, Normal), not_taken]`, then register the
predecessor edge on `not_taken.0` followed by `taken` (source order). -/
def BasicBlockBuilder.add_branch (p : Procedure) (block : BlockId) (condition : Nat)
    (taken : BlockId) (not_taken : FrequentBlock) : Procedure :=
  let p1 := p.modifyBlock block (fun b => { b with successor_list := [] })
  let pv := p1.add_branch condition
  let p2 := pv.fst.add_to_block block pv.snd
  let p3 := p2.modifyBlock block
    (fun b => b.set_successors2 (taken, Frequency.normal) not_taken)
  let p4 := p3.modifyBlock not_taken.fst (fun b => (b.add_predecessor block).fst)
  p4.modifyBlock taken (fun b => (b.add_predecessor block).fst)

/-- Successor list of a block, read through the procedure. -/
def Procedure.succList (p : Procedure) (id : BlockId) : List FrequentBlock :=
  (p.block id).successor_list

/-- Predecessor list of a block, read through the procedure. -/
def Procedure.predList (p : Procedure) (id : BlockId) : List BlockId :=
  (p.block id).predecessor_list

/-- The predecessor-list effect of src/block.rs `BasicBlock::add_predecessor`. -/
def addPredList (l : List BlockId) (x : BlockId) : List BlockId :=
  if l.contains x then l else l ++ [x]

@[simp]
theorem add_predecessor_fst_succ (b : BasicBlock) (x : BlockId) :
    (b.add_predecessor x).fst.successor_list = b.successor_list := by
  unfold BasicBlock.add_predecessor
  split <;> rfl

@[simp]
theorem add_predecessor_fst_pred (b : BasicBlock) (x : BlockId) :
    (b.add_predecessor x).fst.predecessor_list = addPredList b.predecessor_list x := by
  unfold BasicBlock.add_predecessor addPredList
  split <;> rfl

theorem mem_addPredList (l : List BlockId) (x y : BlockId) :
    y ∈ addPredList l x ↔ y ∈ l ∨ y = x := by
  by_cases h : l.contains x = true
  · have hx : x ∈ l := List.mem_of_elem_eq_true h
    simp only [addPredList, h, if_true]
    constructor
    · exact Or.inl
    · rintro (hy | rfl)
      · exact hy
      · exact hx
  · simp only [addPredList, h, if_false]
    simp

theorem count_addPredList_le_one (l : List BlockId) (x : BlockId)
    (h : l.count x ≤ 1) : (addPredList l x).count x ≤ 1 := by
  by_cases hc : l.contains x = true
  · simpa only [addPredList, hc, if_true] using h
  · have hx : x ∉ l := fun hm => hc (List.elem_eq_true_of_mem hm)
    simp only [addPredList, hc, if_false]
    simp [List.count_append, List.count_eq_zero.mpr hx]

/-- A builder-mediated CFG edge operation (src/block.rs `BasicBlockBuilder::add_jump`
or `::add_branch`, applied to some block of the procedure). -/
inductive EdgeOp
  | jump (src tgt : BlockId)
  | branch (src : BlockId) (condition : Nat) (taken : BlockId) (not_taken : FrequentBlock)

/-- The block whose terminal the operation installs. -/
def EdgeOp.src : EdgeOp → BlockId
  | .jump s _ => s
  | .branch s _ _ _ => s

/-- The target blocks of the operation. -/
def EdgeOp.targets : EdgeOp → List BlockId
  | .jump _ t => [t]
  | .branch _ _ tk ntk => [tk, ntk.fst]

/-- The successor list the operation installs on its source block. -/
def EdgeOp.newSuccs : EdgeOp → List FrequentBlock
  | .jump _ t => [(t, Frequency.normal)]
  | .branch _ _ tk ntk => [(tk, Frequency.normal), ntk]

/-- All block ids the operation touches are in range for a procedure with `n` blocks
(the source would panic otherwise). -/
def EdgeOp.valid (n : Nat) (op : EdgeOp) : Bool :=
  decide (op.src < n) && op.targets.all (fun t => decide (t < n))

/-- Run one builder edge operation. -/
def execOp (p : Procedure) : EdgeOp → Procedure
  | .jump s t => BasicBlockBuilder.add_jump p s t
  | .branch s c tk ntk => BasicBlockBuilder.add_branch p s c tk ntk

/-- Run a sequence of builder edge operations, left to right. -/
def execOps (p : Procedure) : List EdgeOp → Procedure
  | [] => p
  | op :: rest => execOps (execOp p op) rest

@[simp]
theorem blocks_length_modifyBlock (p : Procedure) (i : Nat) (f : BasicBlock → BasicBlock) :
    (p.modifyBlock i f).blocks.length = p.blocks.length := by
  simp [Procedure.modifyBlock]

@[simp]
theorem blocks_add (p : Procedure) (v : Value) : (p.add v).fst.blocks = p.blocks := rfl

@[simp]
theorem blocks_length_execOp (p : Procedure) (op : EdgeOp) :
    (execOp p op).blocks.length = p.blocks.length := by
  cases op <;>
    simp [execOp, BasicBlockBuilder.add_jump, BasicBlockBuilder.add_branch,
      Procedure.add_to_block, Procedure.add_jump, Procedure.add_branch]

@[simp]
theorem blocks_length_add_jump (p : Procedure) (s t : BlockId) :
    (BasicBlockBuilder.add_jump p s t).blocks.length = p.blocks.length :=
  blocks_length_execOp p (EdgeOp.jump s t)

@[simp]
theorem blocks_length_execOps (p : Procedure) (ops : List EdgeOp) :
    (execOps p ops).blocks.length = p.blocks.length := by
  induction ops generalizing p with
  | nil => rfl
  | cons op rest ih => simp [execOps, ih]

theorem block_modifyBlock_self (p : Procedure) (i : Nat) (f : BasicBlock → BasicBlock)
    (h : i < p.blocks.length) : (p.modifyBlock i f).block i = f (p.block i) :=
  getD_listModify_self f i p.blocks default h

theorem block_modifyBlock_ne (p : Procedure) (i j : Nat) (f : BasicBlock → BasicBlock)
    (h : j ≠ i) : (p.modifyBlock i f).block j = p.block j :=
  getD_listModify_ne f i j p.blocks default h

theorem listModify_of_le (f : α → α) (n : Nat) (l : List α) (h : l.length ≤ n) :
    listModify f n l = l := by
  induction l generalizing n with
  | nil => cases n <;> rfl
  | cons a rest ih =>
    cases n with
    | zero => simp at h
    | succ m => simp [listModify, ih m (by simpa using h)]

theorem succList_modifyBlock_preserve (p : Procedure) (i : Nat)
    (f : BasicBlock → BasicBlock) (a : BlockId)
    (hf : ∀ b, (f b).successor_list = b.successor_list) :
    (p.modifyBlock i f).succList a = p.succList a := by
  by_cases hai : a = i
  · subst hai
    by_cases hi : a < p.blocks.length
    · simp [Procedure.succList, block_modifyBlock_self p a f hi, hf]
    · have hle : p.blocks.length ≤ a := Nat.le_of_not_lt hi
      simp [Procedure.succList, Procedure.block, Procedure.modifyBlock,
        listModify_of_le f a p.blocks hle]
  · simp [Procedure.succList, block_modifyBlock_ne p i a f hai]

theorem predList_modifyBlock_preserve (p : Procedure) (i : Nat)
    (f : BasicBlock → BasicBlock) (a : BlockId)
    (hf : ∀ b, (f b).predecessor_list = b.predecessor_list) :
    (p.modifyBlock i f).predList a = p.predList a := by
  by_cases hai : a = i
  · subst hai
    by_cases hi : a < p.blocks.length
    · simp [Procedure.predList, block_modifyBlock_self p a f hi, hf]
    · have hle : p.blocks.length ≤ a := Nat.le_of_not_lt hi
      simp [Procedure.predList, Procedure.block, Procedure.modifyBlock,
        listModify_of_le f a p.blocks hle]
  · simp [Procedure.predList, block_modifyBlock_ne p i a f hai]

theorem succList_modifyBlock_self (p : Procedure) (i : Nat) (f : BasicBlock → BasicBlock)
    (h : i < p.blocks.length) :
    (p.modifyBlock i f).succList i = (f (p.block i)).successor_list := by
  rw [Procedure.succList, block_modifyBlock_self p i f h]

theorem succList_modifyBlock_ne (p : Procedure) (i a : Nat) (f : BasicBlock → BasicBlock)
    (h : a ≠ i) : (p.modifyBlock i f).succList a = p.succList a := by
  rw [Procedure.succList, block_modifyBlock_ne p i a f h]; rfl

theorem predList_modifyBlock_self (p : Procedure) (i : Nat) (f : BasicBlock → BasicBlock)
    (h : i < p.blocks.length) :
    (p.modifyBlock i f).predList i = (f (p.block i)).predecessor_list := by
  rw [Procedure.predList, block_modifyBlock_self p i f h]

theorem predList_modifyBlock_ne (p : Procedure) (i a : Nat) (f : BasicBlock → BasicBlock)
    (h : a ≠ i) : (p.modifyBlock i f).predList a = p.predList a := by
  rw [Procedure.predList, block_modifyBlock_ne p i a f h]; rfl

theorem succList_add (p : Procedure) (v : Value) (a : BlockId) :
    ((p.add v).fst).succList a = p.succList a := rfl

theorem predList_add (p : Procedure) (v : Value) (a : BlockId) :
    ((p.add v).fst).predList a = p.predList a := rfl

theorem succList_valuesPush (p : Procedure) (i : Nat) (v : Nat) (a : BlockId) :
    (p.modifyBlock i (fun b => { b with values := b.values ++ [v] })).succList a
      = p.succList a :=
  succList_modifyBlock_preserve p i _ a (fun _ => rfl)

theorem predList_valuesPush (p : Procedure) (i : Nat) (v : Nat) (a : BlockId) :
    (p.modifyBlock i (fun b => { b with values := b.values ++ [v] })).predList a
      = p.predList a :=
  predList_modifyBlock_preserve p i _ a (fun _ => rfl)

theorem predList_clearSucc (p : Procedure) (i : Nat) (a : BlockId) :
    (p.modifyBlock i (fun b => { b with successor_list := [] })).predList a
      = p.predList a :=
  predList_modifyBlock_preserve p i _ a (fun _ => rfl)

theorem predList_setSucc (p : Procedure) (i : Nat) (target : FrequentBlock) (a : BlockId) :
    (p.modifyBlock i (fun b => b.set_successors target)).predList a = p.predList a :=
  predList_modifyBlock_preserve p i _ a (fun _ => rfl)

theorem predList_setSucc2 (p : Procedure) (i : Nat) (t1 t2 : FrequentBlock) (a : BlockId) :
    (p.modifyBlock i (fun b => b.set_successors2 t1 t2)).predList a = p.predList a :=
  predList_modifyBlock_preserve p i _ a (fun _ => rfl)

theorem succList_addPredModify (p : Procedure) (t x a : BlockId) :
    (p.modifyBlock t (fun b => (b.add_predecessor x).fst)).succList a = p.succList a :=
  succList_modifyBlock_preserve p t _ a (fun b => add_predecessor_fst_succ b x)

theorem predList_addPredModify (p : Procedure) (t x a : BlockId)
    (ht : t < p.blocks.length) :
    (p.modifyBlock t (fun b => (b.add_predecessor x).fst)).predList a
      = if a = t then addPredList (p.predList a) x else p.predList a := by
  by_cases ha : a = t
  · subst ha
    rw [predList_modifyBlock_self _ _ _ ht, add_predecessor_fst_pred]
    simp [Procedure.predList]
  · rw [predList_modifyBlock_ne _ _ _ _ ha]
    simp [ha]

/-- Successor-list effect of `add_jump`: the source block's successors become exactly
`[(tgt, Normal)]`; every other block's successors are untouched. -/
theorem succList_add_jump (p : Procedure) (s t a : BlockId) (hs : s < p.blocks.length) :
    (BasicBlockBuilder.add_jump p s t).succList a
      = if a = s then [(t, Frequency.normal)] else p.succList a := by
  simp only [BasicBlockBuilder.add_jump, Procedure.add_jump, Procedure.add_to_block]
  rw [succList_addPredModify]
  by_cases ha : a = s
  · subst ha
    rw [succList_modifyBlock_self _ _ _ (by simpa using hs)]
    simp [BasicBlock.set_successors]
  · rw [succList_modifyBlock_ne _ _ _ _ ha, succList_valuesPush, succList_add,
      succList_modifyBlock_ne _ _ _ _ ha]
    simp [ha]

/-- Successor-list effect of `add_branch`: the source block's successors become
exactly `[(taken, Normal), not_taken]`; every other block's successors are
untouched. -/
theorem succList_add_branch (p : Procedure) (s c tk : BlockId) (ntk : FrequentBlock)
    (a : BlockId) (hs : s < p.blocks.length) :
    (BasicBlockBuilder.add_branch p s c tk ntk).succList a
      = if a = s then [(tk, Frequency.normal), ntk] else p.succList a := by
  simp only [BasicBlockBuilder.add_branch, Procedure.add_branch, Procedure.add_to_block]
  rw [succList_addPredModify, succList_addPredModify]
  by_cases ha : a = s
  · subst ha
    rw [succList_modifyBlock_self _ _ _ (by simpa using hs)]
    simp [BasicBlock.set_successors2]
  · rw [succList_modifyBlock_ne _ _ _ _ ha, succList_valuesPush, succList_add,
      succList_modifyBlock_ne _ _ _ _ ha]
    simp [ha]

/-- Predecessor-list effect of `add_jump`: the target block gains the source as a
predecessor unless already present; every other block's predecessors are untouched. -/
theorem predList_add_jump (p : Procedure) (s t a : BlockId) (ht : t < p.blocks.length) :
    (BasicBlockBuilder.add_jump p s t).predList a
      = if a = t then addPredList (p.predList a) s else p.predList a := by
  simp only [BasicBlockBuilder.add_jump, Procedure.add_jump, Procedure.add_to_block]
  rw [predList_addPredModify _ _ _ _ (by simpa using ht), predList_setSucc,
    predList_valuesPush, predList_add, predList_clearSucc]

/-- Predecessor-list effect of `add_branch`: first `not_taken.0`, then `taken` gain
the source as a predecessor unless already present; other blocks are untouched. -/
theorem predList_add_branch (p : Procedure) (s c tk : BlockId) (ntk : FrequentBlock)
    (a : BlockId) (htk : tk < p.blocks.length) (hnt : ntk.fst < p.blocks.length) :
    (BasicBlockBuilder.add_branch p s c tk ntk).predList a
      = (if a = tk then
          addPredList (if a = ntk.fst then addPredList (p.predList a) s else p.predList a) s
        else
          (if a = ntk.fst then addPredList (p.predList a) s else p.predList a)) := by
  simp only [BasicBlockBuilder.add_branch, Procedure.add_branch, Procedure.add_to_block]
  rw [predList_addPredModify _ _ _ _ (by simpa using htk)]
  rw [predList_addPredModify _ _ _ _ (by simpa using hnt)]
  rw [predList_setSucc2, predList_valuesPush, predList_add, predList_clearSucc]

theorem valid_jump_iff (n : Nat) (s t : BlockId) :
    EdgeOp.valid n (.jump s t) = true ↔ s < n ∧ t < n := by
  simp [EdgeOp.valid, EdgeOp.src, EdgeOp.targets]

theorem valid_branch_iff (n : Nat) (s c tk : BlockId) (ntk : FrequentBlock) :
    EdgeOp.valid n (.branch s c tk ntk) = true ↔ s < n ∧ tk < n ∧ ntk.fst < n := by
  simp [EdgeOp.valid, EdgeOp.src, EdgeOp.targets]

/-- Successor-list effect of one builder edge operation: the source block's successor
list becomes exactly the installed one, all other blocks keep theirs. -/
theorem succList_execOp (p : Procedure) (op : EdgeOp) (a : BlockId)
    (h : op.valid p.blocks.length = true) :
    (execOp p op).succList a = if a = op.src then op.newSuccs else p.succList a := by
  cases op with
  | jump s t =>
    obtain ⟨hs, _⟩ := (valid_jump_iff p.blocks.length s t).mp h
    simpa [EdgeOp.src, EdgeOp.newSuccs] using succList_add_jump p s t a hs
  | branch s c tk ntk =>
    obtain ⟨hs, _, _⟩ := (valid_branch_iff p.blocks.length s c tk ntk).mp h
    simpa [EdgeOp.src, EdgeOp.newSuccs] using succList_add_branch p s c tk ntk a hs

/-- Predecessor-list effect of one builder edge operation, at the membership level:
a block gains the operation's source as a predecessor exactly when it is one of the
operation's targets; no predecessor entry is ever removed. -/
theorem mem_predList_execOp (p : Procedure) (op : EdgeOp) (x b : BlockId)
    (h : op.valid p.blocks.length = true) :
    x ∈ (execOp p op).predList b ↔ x ∈ p.predList b ∨ (x = op.src ∧ b ∈ op.targets) := by
  cases op with
  | jump s t =>
    obtain ⟨_, ht⟩ := (valid_jump_iff p.blocks.length s t).mp h
    simp only [execOp]
    rw [predList_add_jump p s t b ht]
    by_cases hb : b = t
    · subst hb
      rw [if_pos rfl, mem_addPredList]
      simp [EdgeOp.src, EdgeOp.targets]
    · rw [if_neg hb]
      simp [EdgeOp.src, EdgeOp.targets, hb]
  | branch s c tk ntk =>
    obtain ⟨_, htk, hnt⟩ := (valid_branch_iff p.blocks.length s c tk ntk).mp h
    simp only [execOp]
    rw [predList_add_branch p s c tk ntk b htk hnt]
    by_cases hbtk : b = tk <;> by_cases hbnt : b = ntk.fst
    · have hmem : b ∈ EdgeOp.targets (.branch s c tk ntk) := by
        simp [EdgeOp.targets, hbtk]
      rw [if_pos hbtk, if_pos hbnt, mem_addPredList, mem_addPredList]
      constructor
      · rintro ((hm | he) | he)
        · exact Or.inl hm
        · exact Or.inr ⟨he, hmem⟩
        · exact Or.inr ⟨he, hmem⟩
      · rintro (hm | ⟨he, _⟩)
        · exact Or.inl (Or.inl hm)
        · exact Or.inl (Or.inr he)
    · have hmem : b ∈ EdgeOp.targets (.branch s c tk ntk) := by
        simp [EdgeOp.targets, hbtk]
      rw [if_pos hbtk, if_neg hbnt, mem_addPredList]
      constructor
      · rintro (hm | he)
        · exact Or.inl hm
        · exact Or.inr ⟨he, hmem⟩
      · rintro (hm | ⟨he, _⟩)
        · exact Or.inl hm
        · exact Or.inr he
    · have hmem : b ∈ EdgeOp.targets (.branch s c tk ntk) := by
        simp [EdgeOp.targets, hbnt]
      rw [if_neg hbtk, if_pos hbnt, mem_addPredList]
      constructor
      · rintro (hm | he)
        · exact Or.inl hm
        · exact Or.inr ⟨he, hmem⟩
      · rintro (hm | ⟨he, _⟩)
        · exact Or.inl hm
        · exact Or.inr he
    · have hmem : b ∉ EdgeOp.targets (.branch s c tk ntk) := by
        simp [EdgeOp.targets, hbtk, hbnt]
      rw [if_neg hbtk, if_neg hbnt]
      constructor
      · exact Or.inl
      · rintro (hm | ⟨_, he⟩)
        · exact hm
        · exact absurd he hmem

/-- A's successor list has an entry targeting B. -/
def Procedure.succContains (p : Procedure) (a b : BlockId) : Prop :=
  b ∈ (p.succList a).map Prod.fst

/-- B's predecessor list contains A. -/
def Procedure.predContains (p : Procedure) (b a : BlockId) : Prop :=
  a ∈ p.predList b

instance (p : Procedure) (a b : BlockId) : Decidable (p.succContains a b) := by
  unfold Procedure.succContains; infer_instance

instance (p : Procedure) (b a : BlockId) : Decidable (p.predContains b a) := by
  unfold Procedure.predContains; infer_instance

/-- Forward half of the successor/predecessor duality invariant. -/
def DualForward (p : Procedure) : Prop :=
  ∀ a b, p.succContains a b → p.predContains b a

/-- The full successor/predecessor duality invariant. -/
def Dual (p : Procedure) : Prop :=
  ∀ a b, p.succContains a b ↔ p.predContains b a

theorem mem_map_fst_newSuccs (op : EdgeOp) (b : BlockId) :
    b ∈ op.newSuccs.map Prod.fst ↔ b ∈ op.targets := by
  cases op <;> simp [EdgeOp.newSuccs, EdgeOp.targets]

theorem dualForward_execOp (p : Procedure) (op : EdgeOp)
    (h : op.valid p.blocks.length = true) (hI : DualForward p) :
    DualForward (execOp p op) := by
  intro a b hab
  unfold Procedure.succContains at hab
  rw [succList_execOp p op a h] at hab
  unfold Procedure.predContains
  rw [mem_predList_execOp p op a b h]
  by_cases ha : a = op.src
  · rw [if_pos ha] at hab
    exact Or.inr ⟨ha, (mem_map_fst_newSuccs op b).mp hab⟩
  · rw [if_neg ha] at hab
    exact Or.inl (hI a b hab)

theorem dual_execOp (p : Procedure) (op : EdgeOp)
    (h : op.valid p.blocks.length = true) (hK : Dual p)
    (hfresh : p.succList op.src = []) : Dual (execOp p op) := by
  intro a b
  unfold Procedure.succContains Procedure.predContains
  rw [succList_execOp p op a h, mem_predList_execOp p op a b h]
  by_cases ha : a = op.src
  · rw [if_pos ha]
    constructor
    · intro hb
      exact Or.inr ⟨ha, (mem_map_fst_newSuccs op b).mp hb⟩
    · rintro (hmem | ⟨_, hb⟩)
      · have hcontr := (hK a b).mpr hmem
        unfold Procedure.succContains at hcontr
        rw [ha, hfresh] at hcontr
        simp at hcontr
      · exact (mem_map_fst_newSuccs op b).mpr hb
  · rw [if_neg ha]
    constructor
    · intro hb
      exact Or.inl ((hK a b).mp hb)
    · rintro (hmem | ⟨has, _⟩)
      · exact (hK a b).mpr hmem
      · exact absurd has ha

theorem dualForward_execOps (p : Procedure) (ops : List EdgeOp)
    (hv : ∀ op ∈ ops, op.valid p.blocks.length = true) (hI : DualForward p) :
    DualForward (execOps p ops) := by
  induction ops generalizing p with
  | nil => exact hI
  | cons op rest ih =>
    simp only [execOps]
    apply ih
    · intro op' hop'
      have hl := hv op' (List.mem_cons_of_mem _ hop')
      simpa using hl
    · exact dualForward_execOp p op (hv op (List.mem_cons_self _ _)) hI

theorem dual_execOps (p : Procedure) (ops : List EdgeOp)
    (hv : ∀ op ∈ ops, op.valid p.blocks.length = true) (hK : Dual p)
    (hfresh : ∀ op ∈ ops, p.succList op.src = [])
    (hnd : (ops.map EdgeOp.src).Nodup) : Dual (execOps p ops) := by
  induction ops generalizing p with
  | nil => exact hK
  | cons op rest ih =>
    have hvop := hv op (List.mem_cons_self _ _)
    simp only [execOps]
    apply ih
    · intro op' hop'
      have hl := hv op' (List.mem_cons_of_mem _ hop')
      simpa using hl
    · exact dual_execOp p op hvop hK (hfresh op (List.mem_cons_self _ _))
    · intro op' hop'
      have hne : op'.src ≠ op.src := by
        rcases List.nodup_cons.mp hnd with ⟨hno, _⟩
        intro hcontr
        exact hno (hcontr ▸ List.mem_map_of_mem EdgeOp.src hop')
      rw [succList_execOp p op op'.src hvop, if_neg hne]
      exact hfresh op' (List.mem_cons_of_mem _ hop')
    · exact (List.nodup_cons.mp hnd).2

theorem succList_eq_nil_of_edgeless (p : Procedure)
    (hinit : ∀ b ∈ p.blocks, b.successor_list = [] ∧ b.predecessor_list = [])
    (i : BlockId) : p.succList i = [] := by
  unfold Procedure.succList Procedure.block
  by_cases hi : i < p.blocks.length
  · rw [List.getD_eq_getElem p.blocks default hi]
    exact (hinit _ (List.getElem_mem hi)).1
  · rw [List.getD_eq_default _ _ (Nat.le_of_not_lt hi)]
    rfl

theorem predList_eq_nil_of_edgeless (p : Procedure)
    (hinit : ∀ b ∈ p.blocks, b.successor_list = [] ∧ b.predecessor_list = [])
    (i : BlockId) : p.predList i = [] := by
  unfold Procedure.predList Procedure.block
  by_cases hi : i < p.blocks.length
  · rw [List.getD_eq_getElem p.blocks default hi]
    exact (hinit _ (List.getElem_mem hi)).2
  · rw [List.getD_eq_default _ _ (Nat.le_of_not_lt hi)]
    rfl

/-- C1 (amended): starting from a procedure whose blocks carry no CFG edges, after
any sequence of in-range builder edge operations the forward duality holds — if A's
successor list contains an entry for B then B's predecessor list contains A — and
whenever no block is the source of two operations of the sequence (no terminal is
ever re-installed), the full equivalence `A.successors ∋ B ↔ B.predecessors ∋ A`
holds as well. -/
theorem builder_edge_duality (p : Procedure) (ops : List EdgeOp)
    (hv : ∀ op ∈ ops, op.valid p.blocks.length = true)
    (hinit : ∀ b ∈ p.blocks, b.successor_list = [] ∧ b.predecessor_list = []) :
    (∀ a b, (execOps p ops).succContains a b → (execOps p ops).predContains b a)
    ∧ ((ops.map EdgeOp.src).Nodup →
        ∀ a b, ((execOps p ops).succContains a b ↔ (execOps p ops).predContains b a)) := by
  have hK : Dual p := by
    intro a b
    unfold Procedure.succContains Procedure.predContains
    rw [succList_eq_nil_of_edgeless p hinit, predList_eq_nil_of_edgeless p hinit]
    simp
  constructor
  · exact dualForward_execOps p ops hv (fun a b hab => (hK a b).mp hab)
  · intro hnd a b
    exact dual_execOps p ops hv hK
      (fun op _ => succList_eq_nil_of_edgeless p hinit op.src) hnd a b

/-- A concrete three-block procedure (entry plus two more blocks), used by the
concrete instances below. -/
def proc3 : Procedure :=
  (((Procedure.new.add_block 1.0).fst.add_block 1.0).fst.add_block 1.0).fst

/-- C1 counterexample: after `add_jump(0 → 1)` followed by the retargeting
`add_jump(0 → 2)`, block 1's predecessor list still contains block 0 although block
0's successor list no longer has an entry for block 1 — the claimed equivalence
fails for A = 0, B = 1. -/
theorem retarget_breaks_duality :
    (execOps proc3 [EdgeOp.jump 0 1, EdgeOp.jump 0 2]).predContains 1 0
    ∧ ¬ (execOps proc3 [EdgeOp.jump 0 1, EdgeOp.jump 0 2]).succContains 0 1 := by
  decide

/-- Witness for C1 at a concrete procedure: entry branches to blocks 1 and 2 and
block 1 jumps to block 2; all sources are distinct, so the equivalence holds, here
instanced at A = 1, B = 2. -/
theorem builder_edge_duality_witness :
    (execOps proc3 [EdgeOp.branch 0 7 1 (2, Frequency.rare), EdgeOp.jump 1 2]).succContains 1 2
    ↔ (execOps proc3 [EdgeOp.branch 0 7 1 (2, Frequency.rare), EdgeOp.jump 1 2]).predContains 2 1 :=
  (builder_edge_duality proc3 [EdgeOp.branch 0 7 1 (2, Frequency.rare), EdgeOp.jump 1 2]
    (by decide) (by decide)).2 (by decide) 1 2

/-- C3: `add_branch(cond, T, (F, freq))` on a block leaves that block's successor
list exactly `[(T, Normal), (F, freq)]`, with `taken()` returning the successor at
index 0 and `not_taken()` the successor at index 1. -/
theorem add_branch_successors (p : Procedure) (s c tk : BlockId) (ntk : FrequentBlock)
    (hs : s < p.blocks.length) (htk : tk < p.blocks.length)
    (hnt : ntk.fst < p.blocks.length) :
    (BasicBlockBuilder.add_branch p s c tk ntk).succList s
        = [(tk, Frequency.normal), ntk]
    ∧ ((BasicBlockBuilder.add_branch p s c tk ntk).block s).taken
        = some (tk, Frequency.normal)
    ∧ ((BasicBlockBuilder.add_branch p s c tk ntk).block s).not_taken = some ntk := by
  have hsucc := succList_add_branch p s c tk ntk s hs
  rw [if_pos rfl] at hsucc
  refine ⟨hsucc, ?_, ?_⟩
  · rw [BasicBlock.taken]
    change ((BasicBlockBuilder.add_branch p s c tk ntk).succList s)[0]? = _
    rw [hsucc]
    rfl
  · rw [BasicBlock.not_taken]
    change ((BasicBlockBuilder.add_branch p s c tk ntk).succList s)[1]? = _
    rw [hsucc]
    rfl

/-- Witness for C3 at a concrete procedure: block 0 branches to 1 (taken) and 2
(not taken, Rare). -/
theorem add_branch_successors_witness :
    (BasicBlockBuilder.add_branch proc3 0 7 1 (2, Frequency.rare)).succList 0
        = [(1, Frequency.normal), (2, Frequency.rare)]
    ∧ ((BasicBlockBuilder.add_branch proc3 0 7 1 (2, Frequency.rare)).block 0).taken
        = some (1, Frequency.normal)
    ∧ ((BasicBlockBuilder.add_branch proc3 0 7 1 (2, Frequency.rare)).block 0).not_taken
        = some (2, Frequency.rare) :=
  add_branch_successors proc3 0 7 1 (2, Frequency.rare) (by decide) (by decide) (by decide)

/-- Repeated application of `add_jump` from the same source to the same target. -/
def addJumpIter (s t : BlockId) : Nat → Procedure → Procedure
  | 0, p => p
  | n + 1, p => addJumpIter s t n (BasicBlockBuilder.add_jump p s t)

theorem count_addJumpIter_le_one (s t : BlockId) (n : Nat) : ∀ p : Procedure,
    s < p.blocks.length → t < p.blocks.length →
    (p.predList t).count s ≤ 1 → ((addJumpIter s t n p).predList t).count s ≤ 1 := by
  induction n with
  | zero => exact fun p _ _ hc => hc
  | succ m ih =>
    intro p hs ht hc
    simp only [addJumpIter]
    apply ih
    · simpa using hs
    · simpa using ht
    · have hp := predList_add_jump p s t t ht
      rw [if_pos rfl] at hp
      rw [hp]
      exact count_addPredList_le_one _ _ hc

/-- C4: `add_jump(to)` on a fresh block (empty successor list) leaves exactly the
one successor `(to, Normal)`, and any number of repeated `add_jump` calls from the
same source to the same target leaves the source at most once in the target's
predecessor list. -/
theorem add_jump_fresh_and_no_dup (p : Procedure) (s t : BlockId)
    (hs : s < p.blocks.length) (ht : t < p.blocks.length)
    (hfresh : p.succList s = [])
    (hcount : (p.predList t).count s ≤ 1) :
    (BasicBlockBuilder.add_jump p s t).succList s = [(t, Frequency.normal)]
    ∧ ∀ n, ((addJumpIter s t n p).predList t).count s ≤ 1 := by
  constructor
  · have hsucc := succList_add_jump p s t s hs
    rwa [if_pos rfl] at hsucc
  · intro n
    exact count_addJumpIter_le_one s t n p hs ht hcount

/-- Witness for C4 at a concrete procedure, with three repeated jumps 0 → 1. -/
theorem add_jump_fresh_and_no_dup_witness :
    (BasicBlockBuilder.add_jump proc3 0 1).succList 0 = [(1, Frequency.normal)]
    ∧ ((addJumpIter 0 1 3 proc3).predList 1).count 0 ≤ 1 :=
  ⟨(add_jump_fresh_and_no_dup proc3 0 1 (by decide) (by decide) (by decide)
      (by decide)).1,
   (add_jump_fresh_and_no_dup proc3 0 1 (by decide) (by decide) (by decide)
      (by decide)).2 3⟩

/-- Modelled from the spec: the generated opcode enum (src/air/opcode.rs and
src/air/opcode_generated.rs are not under the embedded sources).  The six
irregular/variadic opcodes matched explicitly by src/air/inst.rs are named; every
other opcode is `Other n`, carrying its integer discriminant.  The discriminants
assigned to the six named opcodes below are immaterial: no claim indexes the form
table at an irregular opcode. -/
inductive Opcode
  | EntrySwitch
  | Shuffle
  | Patch
  | CCall
  | ColdCCall
  | WasmBoundsCheck
  | Other (discriminant : Nat)
deriving DecidableEq

/-- The integer discriminant used by `self.kind.opcode as usize` in src/air/inst.rs. -/
def Opcode.toNat : Opcode → Nat
  | .EntrySwitch => 0
  | .Shuffle => 1
  | .Patch => 2
  | .CCall => 3
  | .ColdCCall => 4
  | .WasmBoundsCheck => 5
  | .Other n => n

/-- The six irregular/variadic opcodes given explicit `todo!()` arms in
src/air/inst.rs `for_each_arg` / `for_each_arg_mut`. -/
def Opcode.isIrregular : Opcode → Bool
  | .EntrySwitch | .Shuffle | .Patch | .CCall | .ColdCCall | .WasmBoundsCheck => true
  | .Other _ => false

/-- Modelled from the spec: src/air/kind.rs is not under the embedded sources;
src/air/inst.rs reads only its `opcode` field. -/
structure Kind where
  opcode : Opcode
deriving DecidableEq

/-- Modelled from the spec (§3): src/air/arg.rs is not under the embedded sources.
An operand is an immediate, a virtual temporary, a physical register, a stack-slot
reference, or an addressing form. -/
inductive Arg
  | imm (value : Int)
  | tmp (index : Nat)
  | reg (index : Nat)
  | stackSlot (slot : Nat)
  | addr (base : Nat) (offset : Int)
deriving DecidableEq, Inhabited

/-- Modelled from the spec (§3): operand role — use/def with early/late variants
(src/air/arg.rs is not under the embedded sources). -/
inductive ArgRole
  | Use
  | Def
  | UseDef
  | EarlyDef
  | LateUse
  | LateDef
deriving DecidableEq, Inhabited

/-- Role predicate consumed by `has_late_use_or_def`. -/
def ArgRole.is_late_use : ArgRole → Bool
  | .LateUse => true
  | _ => false

/-- Role predicate consumed by `has_late_use_or_def`. -/
def ArgRole.is_late_def : ArgRole → Bool
  | .LateDef => true
  | _ => false

/-- Role predicate consumed by `has_early_def`. -/
def ArgRole.is_early_def : ArgRole → Bool
  | .EarlyDef => true
  | _ => false

/-- Modelled from the spec (§2, glossary): register-class domain of an operand. -/
inductive Bank
  | GP
  | FP
deriving DecidableEq, Inhabited

/-- Modelled from the spec (§3, glossary): operand bit width. -/
inductive Width
  | W8
  | W16
  | W32
  | W64
deriving DecidableEq, Inhabited

/-- Modelled from the spec (§4.4): one packed per-position operand descriptor of the
generated form table (src/air/form_table.rs and src/air/opcode_generated.rs are not
under the embedded sources), modelled unpacked as a record. -/
structure Form where
  role : ArgRole
  bank : Bank
  width : Width
deriving DecidableEq, Inhabited

/-- Modelled from the spec: src/air/form_table.rs `decode_form_role`. -/
def decode_form_role (f : Form) : ArgRole := f.role

/-- Modelled from the spec: src/air/form_table.rs `decode_form_bank`. -/
def decode_form_bank (f : Form) : Bank := f.bank

/-- Modelled from the spec: src/air/form_table.rs `decode_form_width`. -/
def decode_form_width (f : Form) : Width := f.width

/-- The generated flat descriptor table `G_FORM_TABLE`, an external precomputed input
artifact (spec §1/§6); it is passed to the traversal functions as a parameter. -/
abbrev FormTable := List Form

/-- src/air/inst.rs `Inst`: operand list, originating value id, kind, and the
transient stream index (field order as declared in the source). -/
structure Inst where
  args : List Arg
  origin : Nat
  kind : Kind
  index : Nat
deriving DecidableEq

/-- src/air/inst.rs `Inst::new`: collects the operands and starts the stream index
at 0. -/
def Inst.new (kind : Kind) (origin : Nat) (arguments : List Arg) : Inst :=
  ⟨arguments, origin, kind, 0⟩

/-- The derived `PartialEq` of src/air/inst.rs `Inst` (line 14): field-wise equality
over args, origin, kind and index. -/
def Inst.eq (a b : Inst) : Bool :=
  decide (a.args = b.args) && decide (a.origin = b.origin)
    && decide (a.kind = b.kind) && decide (a.index = b.index)

/-- The derived `Clone` of src/air/inst.rs `Inst` (line 14): field-wise copy. -/
def Inst.clone (i : Inst) : Inst :=
  ⟨i.args, i.origin, i.kind, i.index⟩

/-- src/air/inst.rs `Inst::for_each_arg_simple`: visits each operand in order with
the role/bank/width decoded from the table slice starting at
`opcode·21 + (n−1)·n/2`; the visit sequence is returned as a list.  (For `n = 0` the
Rust `wrapping_sub` offset also evaluates to 0.) -/
def Inst.for_each_arg_simple (tbl : FormTable) (inst : Inst) :
    List (Arg × ArgRole × Bank × Width) :=
  let num_operands := inst.args.length
  let form_offset := (num_operands - 1) * num_operands / 2
  let form_base := tbl.drop (inst.kind.opcode.toNat * 21 + form_offset)
  (List.range num_operands).map fun i =>
    let form := form_base.getD i default
    (inst.args.getD i default, decode_form_role form, decode_form_bank form,
      decode_form_width form)

/-- src/air/inst.rs `Inst::for_each_arg_simple_mut`: the same traversal, with the
closure replacing each operand in place; the updated instruction is returned. -/
def Inst.for_each_arg_simple_mut (tbl : FormTable) (inst : Inst)
    (f : Arg → ArgRole → Bank → Width → Arg) : Inst :=
  let num_operands := inst.args.length
  let form_offset := (num_operands - 1) * num_operands / 2
  let form_base := tbl.drop (inst.kind.opcode.toNat * 21 + form_offset)
  { inst with
    args := (List.range num_operands).map fun i =>
      let form := form_base.getD i default
      f (inst.args.getD i default) (decode_form_role form) (decode_form_bank form)
        (decode_form_width form) }

/-- src/air/inst.rs `Inst::for_each_arg`: the `todo!()` hard stop on each of the six
irregular opcodes is modelled as `none`; every other opcode takes the generic
table-driven path. -/
def Inst.for_each_arg (tbl : FormTable) (inst : Inst) :
    Option (List (Arg × ArgRole × Bank × Width)) :=
  match inst.kind.opcode with
  | .EntrySwitch => none
  | .Shuffle => none
  | .Patch => none
  | .CCall => none
  | .ColdCCall => none
  | .WasmBoundsCheck => none
  | .Other _ => some (inst.for_each_arg_simple tbl)

/-- src/air/inst.rs `Inst::for_each_arg_mut`: the `todo!()` hard stop on each of the
six irregular opcodes is modelled as `none`; every other opcode takes the generic
table-driven path. -/
def Inst.for_each_arg_mut (tbl : FormTable) (inst : Inst)
    (f : Arg → ArgRole → Bank → Width → Arg) : Option Inst :=
  match inst.kind.opcode with
  | .EntrySwitch => none
  | .Shuffle => none
  | .Patch => none
  | .CCall => none
  | .ColdCCall => none
  | .WasmBoundsCheck => none
  | .Other _ => some (inst.for_each_arg_simple_mut tbl f)

/-- src/air/inst.rs `Inst::has_late_use_or_def`: `todo!()` on `Patch` (modelled
`none`); otherwise the OR-accumulating traversal over `for_each_arg`, which itself
hard-stops on the remaining irregular opcodes. -/
def Inst.has_late_use_or_def (tbl : FormTable) (inst : Inst) : Option Bool :=
  if inst.kind.opcode = Opcode.Patch then none
  else
    (inst.for_each_arg tbl).map
      (fun visited => visited.any fun x => x.snd.fst.is_late_use || x.snd.fst.is_late_def)

/-- src/air/inst.rs `Inst::has_early_def`: `todo!()` on `Patch` (modelled `none`);
otherwise the OR-accumulating traversal over `for_each_arg`. -/
def Inst.has_early_def (tbl : FormTable) (inst : Inst) : Option Bool :=
  if inst.kind.opcode = Opcode.Patch then none
  else
    (inst.for_each_arg tbl).map
      (fun visited => visited.any fun x => x.snd.fst.is_early_def)

/-- src/air/inst.rs `Inst::needs_padding`:
`prev.has_late_use_or_def() && next.has_early_def()`, with Rust's short-circuiting
`&&` (the second operand is not evaluated when the first is false). -/
def Inst.needs_padding (tbl : FormTable) (prev nxt : Inst) : Option Bool :=
  match prev.has_late_use_or_def tbl with
  | none => none
  | some false => some false
  | some true => nxt.has_early_def tbl

/-- C2 counterexample: two `Inst`s agreeing on kind, operand list and origin but
carrying stream indices 0 and 1 are unequal under the derived field-wise equality —
the claim that `==` ignores the transient stream index is false on the code. -/
theorem inst_eq_distinguishes_index :
    Inst.eq ⟨[], 0, ⟨Opcode.Other 0⟩, 0⟩ ⟨[], 0, ⟨Opcode.Other 0⟩, 1⟩ = false := by
  decide

/-- C2 (amended): the derived equality and clone of `Inst` are structural over all
four fields — operand list, origin, kind and the stream index alike: `==` holds iff
all four fields agree (so two instructions differing only in stream index are not
equal), and cloning copies all four fields, the stream index included. -/
theorem inst_eq_clone_structural (a b : Inst) :
    (Inst.eq a b = true
      ↔ (a.args = b.args ∧ a.origin = b.origin ∧ a.kind = b.kind ∧ a.index = b.index))
    ∧ Inst.clone a = a := by
  constructor
  · simp [Inst.eq, and_assoc]
  · rfl

/-- C9: on each of the six irregular/variadic opcodes (`EntrySwitch`, `Shuffle`,
`Patch`, `CCall`, `ColdCCall`, `WasmBoundsCheck`) both `for_each_arg` and
`for_each_arg_mut` hit the explicit not-yet-implemented hard stop (modelled `none`)
instead of traversing; on every other opcode both take the generic table-driven
path. -/
theorem for_each_arg_irregular_stop (tbl : FormTable) (inst : Inst)
    (f : Arg → ArgRole → Bank → Width → Arg) :
    inst.for_each_arg tbl
        = (if inst.kind.opcode.isIrregular then none
           else some (inst.for_each_arg_simple tbl))
    ∧ inst.for_each_arg_mut tbl f
        = (if inst.kind.opcode.isIrregular then none
           else some (inst.for_each_arg_simple_mut tbl f)) := by
  cases h : inst.kind.opcode <;>
    simp [Inst.for_each_arg, Inst.for_each_arg_mut, Opcode.isIrregular, h]

/-- C6: for instructions whose opcodes take the generic table-driven path (neither
being `Patch` nor another irregular opcode), `needs_padding(prev, next)` computes
(without faulting) exactly whether `prev` has an operand whose decoded role is
late-use or late-def and `next` has an operand whose decoded role is early-def. -/
theorem needs_padding_generic (tbl : FormTable) (prev nxt : Inst)
    (hp : prev.kind.opcode.isIrregular = false)
    (hn : nxt.kind.opcode.isIrregular = false) :
    Inst.needs_padding tbl prev nxt =
      some ((prev.for_each_arg_simple tbl).any
              (fun x => x.snd.fst.is_late_use || x.snd.fst.is_late_def)
            && (nxt.for_each_arg_simple tbl).any (fun x => x.snd.fst.is_early_def)) := by
  obtain ⟨kp, hkp⟩ : ∃ n, prev.kind.opcode = Opcode.Other n := by
    cases h : prev.kind.opcode <;> simp_all [Opcode.isIrregular]
  obtain ⟨kn, hkn⟩ : ∃ n, nxt.kind.opcode = Opcode.Other n := by
    cases h : nxt.kind.opcode <;> simp_all [Opcode.isIrregular]
  have hlate : prev.has_late_use_or_def tbl
      = some ((prev.for_each_arg_simple tbl).any
          (fun x => x.snd.fst.is_late_use || x.snd.fst.is_late_def)) := by
    simp [Inst.has_late_use_or_def, Inst.for_each_arg, hkp]
  have hearly : nxt.has_early_def tbl
      = some ((nxt.for_each_arg_simple tbl).any (fun x => x.snd.fst.is_early_def)) := by
    simp [Inst.has_early_def, Inst.for_each_arg, hkn]
  rw [Inst.needs_padding, hlate]
  cases hA : (prev.for_each_arg_simple tbl).any
      (fun x => x.snd.fst.is_late_use || x.snd.fst.is_late_def) <;>
    simp [hearly]

/-- Witness for C6 at a concrete table and instruction pair: `prev` (one operand,
late-use role at table position 0) and `nxt` (two operands, early-def role at table
position 1) trigger the padding condition. -/
theorem needs_padding_generic_witness :
    Opcode.isIrregular (Inst.new ⟨Opcode.Other 0⟩ 0 [Arg.tmp 0]).kind.opcode = false
    ∧ Opcode.isIrregular
        (Inst.new ⟨Opcode.Other 0⟩ 1 [Arg.tmp 1, Arg.tmp 2]).kind.opcode = false
    ∧ Inst.needs_padding
        [⟨ArgRole.LateUse, Bank.GP, Width.W64⟩, ⟨ArgRole.EarlyDef, Bank.GP, Width.W64⟩,
         ⟨ArgRole.Use, Bank.GP, Width.W64⟩]
        (Inst.new ⟨Opcode.Other 0⟩ 0 [Arg.tmp 0])
        (Inst.new ⟨Opcode.Other 0⟩ 1 [Arg.tmp 1, Arg.tmp 2]) =
      some (((Inst.new ⟨Opcode.Other 0⟩ 0 [Arg.tmp 0]).for_each_arg_simple
              [⟨ArgRole.LateUse, Bank.GP, Width.W64⟩, ⟨ArgRole.EarlyDef, Bank.GP, Width.W64⟩,
               ⟨ArgRole.Use, Bank.GP, Width.W64⟩]).any
              (fun x => x.snd.fst.is_late_use || x.snd.fst.is_late_def)
            && ((Inst.new ⟨Opcode.Other 0⟩ 1 [Arg.tmp 1, Arg.tmp 2]).for_each_arg_simple
              [⟨ArgRole.LateUse, Bank.GP, Width.W64⟩, ⟨ArgRole.EarlyDef, Bank.GP, Width.W64⟩,
               ⟨ArgRole.Use, Bank.GP, Width.W64⟩]).any
              (fun x => x.snd.fst.is_early_def)) :=
  ⟨rfl, rfl,
   needs_padding_generic
     [⟨ArgRole.LateUse, Bank.GP, Width.W64⟩, ⟨ArgRole.EarlyDef, Bank.GP, Width.W64⟩,
      ⟨ArgRole.Use, Bank.GP, Width.W64⟩]
     (Inst.new ⟨Opcode.Other 0⟩ 0 [Arg.tmp 0])
     (Inst.new ⟨Opcode.Other 0⟩ 1 [Arg.tmp 1, Arg.tmp 2]) rfl rfl⟩

theorem getD_drop (l : List α) (s i : Nat) (d : α) :
    (l.drop s).getD i d = l.getD (s + i) d := by
  induction s generalizing l with
  | zero => simp
  | succ m ih =>
    cases l with
    | nil => simp
    | cons a rest => simpa [Nat.succ_add] using ih rest

/-- C7: in the generic table-driven traversal of an instruction with `n` operands,
the visit sequence has exactly `n` entries, and entry `i` pairs operand `i` with the
role, bank and width decoded from the descriptor at flat table position
`opcode·21 + (n−1)·n/2 + i` — the sub-table offset inside the opcode's row being the
triangular number `(n−1)·n/2` — in both the const and the mutable traversal. -/
theorem for_each_arg_simple_position (tbl : FormTable) (inst : Inst) (i : Nat)
    (f : Arg → ArgRole → Bank → Width → Arg) (hi : i < inst.args.length) :
    (inst.for_each_arg_simple tbl).length = inst.args.length
    ∧ (inst.for_each_arg_simple tbl)[i]? =
        some (inst.args.getD i default,
          decode_form_role (tbl.getD (inst.kind.opcode.toNat * 21
            + (inst.args.length - 1) * inst.args.length / 2 + i) default),
          decode_form_bank (tbl.getD (inst.kind.opcode.toNat * 21
            + (inst.args.length - 1) * inst.args.length / 2 + i) default),
          decode_form_width (tbl.getD (inst.kind.opcode.toNat * 21
            + (inst.args.length - 1) * inst.args.length / 2 + i) default))
    ∧ (inst.for_each_arg_simple_mut tbl f).args[i]? =
        some (f (inst.args.getD i default)
          (decode_form_role (tbl.getD (inst.kind.opcode.toNat * 21
            + (inst.args.length - 1) * inst.args.length / 2 + i) default))
          (decode_form_bank (tbl.getD (inst.kind.opcode.toNat * 21
            + (inst.args.length - 1) * inst.args.length / 2 + i) default))
          (decode_form_width (tbl.getD (inst.kind.opcode.toNat * 21
            + (inst.args.length - 1) * inst.args.length / 2 + i) default))) := by
  refine ⟨?_, ?_, ?_⟩
  · simp [Inst.for_each_arg_simple]
  · simp only [Inst.for_each_arg_simple, List.getElem?_map, List.getElem?_range hi,
      getD_drop]
    rfl
  · simp only [Inst.for_each_arg_simple_mut, List.getElem?_map, List.getElem?_range hi,
      getD_drop]
    rfl

/-- Witness for C7 at a concrete two-operand instruction and table, instanced at
operand index 1 (flat table position `0·21 + 1 + 1 = 2`). -/
theorem for_each_arg_simple_position_witness :
    ((Inst.new ⟨Opcode.Other 0⟩ 0 [Arg.tmp 1, Arg.tmp 2]).for_each_arg_simple
        [⟨ArgRole.Use, Bank.GP, Width.W32⟩, ⟨ArgRole.Use, Bank.FP, Width.W64⟩,
         ⟨ArgRole.Def, Bank.GP, Width.W16⟩]).length
      = (Inst.new ⟨Opcode.Other 0⟩ 0 [Arg.tmp 1, Arg.tmp 2]).args.length
    ∧ ((Inst.new ⟨Opcode.Other 0⟩ 0 [Arg.tmp 1, Arg.tmp 2]).for_each_arg_simple
        [⟨ArgRole.Use, Bank.GP, Width.W32⟩, ⟨ArgRole.Use, Bank.FP, Width.W64⟩,
         ⟨ArgRole.Def, Bank.GP, Width.W16⟩])[1]? =
      some (Arg.tmp 2, ArgRole.Def, Bank.GP, Width.W16) := by
  have h := for_each_arg_simple_position
    [⟨ArgRole.Use, Bank.GP, Width.W32⟩, ⟨ArgRole.Use, Bank.FP, Width.W64⟩,
     ⟨ArgRole.Def, Bank.GP, Width.W16⟩]
    (Inst.new ⟨Opcode.Other 0⟩ 0 [Arg.tmp 1, Arg.tmp 2]) 1
    (fun a _ _ _ => a) (by decide)
  exact ⟨h.1, by rw [h.2.1]; decide⟩

/-- Bounded binary logarithm used by the IEEE-754 conversion below, fuel-based so
that it reduces by kernel computation; all inputs here are below `2^64`. -/
def floorLog2Aux : Nat → Nat → Nat
  | 0, _ => 0
  | fuel + 1, n => if n ≤ 1 then 0 else floorLog2Aux fuel (n / 2) + 1

/-- Floor of the binary logarithm (0 at 0). -/
def floorLog2 (n : Nat) : Nat := floorLog2Aux 64 n

/-- Round-to-nearest-ties-to-even conversion of a natural number to IEEE-754 bits
with `mbits` mantissa bits and exponent bias `bias`: the semantics of Rust's numeric
casts `as f32` / `as f64` on the magnitude (no overflow to infinity can occur for
`i64` inputs). -/
def floatBitsOfNat (mbits bias n : Nat) : Nat :=
  if n = 0 then 0
  else
    let k := floorLog2 n
    if k ≤ mbits then
      (k + bias) * 2 ^ mbits + n * 2 ^ (mbits - k) - 2 ^ mbits
    else
      let shift := k - mbits
      let q := n / 2 ^ shift
      let r := n % 2 ^ shift
      let half := 2 ^ shift / 2
      let rounded := if half < r ∨ (r = half ∧ q % 2 = 1) then q + 1 else q
      if rounded = 2 ^ (mbits + 1) then (k + 1 + bias) * 2 ^ mbits
      else (k + bias) * 2 ^ mbits + (rounded - 2 ^ mbits)

/-- Rust's `as f32` on an `i64`, as IEEE-754 single bits. -/
def f32BitsOfInt (v : Int) : Nat :=
  if v < 0 then 2 ^ 31 + floatBitsOfNat 23 127 v.natAbs
  else floatBitsOfNat 23 127 v.natAbs

/-- Rust's `as f64` on an `i64`, as IEEE-754 double bits. -/
def f64BitsOfInt (v : Int) : Nat :=
  if v < 0 then 2 ^ 63 + floatBitsOfNat 52 1023 v.natAbs
  else floatBitsOfNat 52 1023 v.natAbs

/-- Rust's `as i32` two's-complement truncation of an integer. -/
def toI32 (v : Int) : Int := (v + 2 ^ 31) % 2 ^ 32 - 2 ^ 31

/-- Rust's `as i64` two's-complement truncation of an integer. -/
def toI64 (v : Int) : Int := (v + 2 ^ 63) % 2 ^ 64 - 2 ^ 63

/-- Modelled from the spec: src/typ.rs is not under the embedded sources; these are
the type kinds matched by the constant constructors of src/procedure.rs, plus `Void`
standing for the kinds that hit the fatal `panic!` arm. -/
inductive TypeKind
  | Void
  | Int32
  | Int64
  | Float
  | Double
deriving DecidableEq

/-- src/procedure.rs `Procedure::add_int_constant`: `value` is the `i64` produced by
`impl Into<i64>`; each arm applies the source's cast (`as i32` truncation for Int32,
identity for Int64, the numeric casts `as f32` / `as f64` for Float/Double) before
registering the constant; the `panic!("Invalid type for constant")` arm is modelled
as `none`. -/
def Procedure.add_int_constant (p : Procedure) (typ : TypeKind) (value : Int) :
    Option (Procedure × Nat) :=
  match typ with
  | .Int32 => some (p.add (Value.const32 (toI32 value)))
  | .Int64 => some (p.add (Value.const64 value))
  | .Float => some (p.add (Value.constFloat (f32BitsOfInt value)))
  | .Double => some (p.add (Value.constDouble (f64BitsOfInt value)))
  | .Void => none

/-- src/procedure.rs `Procedure::add_bits_constant`: `value` is the `u64` produced by
`impl Into<u64>`; the integer arms reinterpret (`as i32` / `as i64`), the float arms
truncate to the target width and reinterpret the bit pattern
(`f32::from_bits` / `f64::from_bits` — not a numeric cast); the `panic!` arm is
modelled as `none`. -/
def Procedure.add_bits_constant (p : Procedure) (typ : TypeKind) (value : Nat) :
    Option (Procedure × Nat) :=
  match typ with
  | .Int32 => some (p.add (Value.const32 (toI32 (Int.ofNat value))))
  | .Int64 => some (p.add (Value.const64 (toI64 (Int.ofNat value))))
  | .Float => some (p.add (Value.constFloat (value % 2 ^ 32)))
  | .Double => some (p.add (Value.constDouble (value % 2 ^ 64)))
  | .Void => none

/-- C8: `add_int_constant(Int32, 42)` registers the 32-bit integer constant 42;
`add_bits_constant(Float, 0x3F800000)` registers the float constant with bit pattern
`0x3F800000`, which is exactly IEEE-754 single-precision 1.0
(`floatBitsOfNat 23 127 1 = 0x3F800000`); and on Float the two constructors disagree
on the same input integer: `add_int_constant` numerically casts `0x3F800000` to the
float `1065353216.0` (bits `0x4E7E0000`) instead of reinterpreting the bit
pattern. -/
theorem int_bits_constant_spec (p : Procedure) :
    p.add_int_constant TypeKind.Int32 42 = some (p.add (Value.const32 42))
    ∧ p.add_bits_constant TypeKind.Float 0x3F800000
        = some (p.add (Value.constFloat 0x3F800000))
    ∧ floatBitsOfNat 23 127 1 = 0x3F800000
    ∧ p.add_int_constant TypeKind.Float 0x3F800000
        = some (p.add (Value.constFloat 0x4E7E0000))
    ∧ (0x4E7E0000 : Nat) ≠ 0x3F800000 := by
  refine ⟨?_, ?_, by decide, ?_, by decide⟩
  · show some (p.add (Value.const32 (toI32 42))) = _
    have h : toI32 42 = 42 := by decide
    rw [h]
  · show some (p.add (Value.constFloat (0x3F800000 % 2 ^ 32))) = _
    have h : (0x3F800000 % 2 ^ 32 : Nat) = 0x3F800000 := by decide
    rw [h]
  · show some (p.add (Value.constFloat (f32BitsOfInt 0x3F800000))) = _
    have h : f32BitsOfInt 0x3F800000 = 0x4E7E0000 := by decide
    rw [h]

end B3
